import Mathlib

/-!
Shallow embedding of `src/lib.rs` of the `simple-router` crate.

Paths and method texts are modelled as `List Char` (the characters of the
Rust `String`).  The `resolve` method may panic in Rust (it calls
`Method::try_from(method).unwrap()` inside its scan loop), so its embedding
returns `Option (List Char)`: `none` models the panic, `some s` models the
returned string `s`.
-/

set_option autoImplicit false

namespace SimpleRouter

/-- Characters of a Rust `String`. -/
abbrev Chars := List Char

/-- Characters of a Lean string literal. -/
def s2l (s : String) : Chars := s.data

/-- The `Method` enum from the source: GET, POST, PUT, DELETE. -/
inductive Method where
  | GET
  | POST
  | PUT
  | DELETE
deriving DecidableEq

/-- Rust `impl TryFrom<&str> for Method`: matches the exact strings
`"GET" | "get"`, `"POST" | "post"`, `"PUT" | "put"`, `"DELETE" | "delete"`,
anything else is `Err("invalid method")`. -/
def Method.tryFrom (value : Chars) : Except Chars Method :=
  if value = s2l "GET" ∨ value = s2l "get" then Except.ok Method.GET
  else if value = s2l "POST" ∨ value = s2l "post" then Except.ok Method.POST
  else if value = s2l "PUT" ∨ value = s2l "put" then Except.ok Method.PUT
  else if value = s2l "DELETE" ∨ value = s2l "delete" then Except.ok Method.DELETE
  else Except.error (s2l "invalid method")

/-- Rust `pub type Handler = fn() -> String`. -/
abbrev Handler := Unit → Chars

/-- The `Node` struct: `{ method, pattern, handler }`. -/
structure Node where
  method : Method
  pattern : Chars
  handler : Handler

/-- The `Router` struct: a vector of nodes in registration order. -/
structure Router where
  nodes : List Node

/-- Rust `Router::default()`: the empty registry. -/
def Router.default : Router := ⟨[]⟩

/-- Does the string contain two consecutive slashes (`contains("//")`)? -/
def hasDS : Chars → Bool
  | [] => false
  | [_] => false
  | c :: d :: rest => if c = '/' ∧ d = '/' then true else hasDS (d :: rest)

/-- One pass of Rust `String::replace("//", "/")`: replaces each
non-overlapping occurrence of `//` by `/`, scanning left to right (after a
match the scan resumes past the replaced occurrence). -/
def collapseStep : Chars → Chars
  | [] => []
  | [c] => [c]
  | c :: d :: rest => if c = '/' ∧ d = '/' then '/' :: collapseStep rest else c :: collapseStep (d :: rest)

/-- Full collapse of every run of slashes to a single slash, in one
structural pass.  This is the specification-level description of the
source's replace loop; `collapseLoop_eq_dedup` proves the loop computes
exactly this. -/
def dedup : Chars → Chars
  | [] => []
  | [c] => [c]
  | c :: d :: rest => if c = '/' ∧ d = '/' then dedup (d :: rest) else c :: dedup (d :: rest)

/-- Rust `str::ends_with('/')`. -/
def endsSlash : Chars → Bool
  | [] => false
  | [c] => decide (c = '/')
  | _ :: d :: rest => endsSlash (d :: rest)

/-- The `while a.contains("//") { a = a.replace("//", "/") }` loop, run with
explicit fuel.  Each iteration with a `//` present strictly shrinks the
string, so `s.length` steps of fuel always reach the fixpoint
(`collapseLoop_eq_dedup` below proves the loop's result exactly). -/
def collapseIter : Nat → Chars → Chars
  | 0, s => s
  | n + 1, s => if hasDS s then collapseIter n (collapseStep s) else s

/-- The slash-collapsing loop of `Router::resolve`, with sufficient fuel. -/
def collapseLoop (s : Chars) : Chars := collapseIter s.length s

/-- Rust `if a.ends_with('/') { a.pop(); }`: remove exactly one trailing slash. -/
def popTrailing : Chars → Chars
  | [] => []
  | [c] => if c = '/' then [] else [c]
  | c :: d :: rest => c :: popTrailing (d :: rest)

/-- The path canonicalization performed on the query path inside
`Router::resolve`: collapse consecutive slashes, then remove one trailing
slash. -/
def normalize (path : Chars) : Chars := popTrailing (collapseLoop path)

/-- Rust `str::split('/')` as a list of segments; the empty string yields
one empty segment, and a leading/trailing separator yields an empty
segment at that end. -/
def splitSlash : Chars → List Chars
  | [] => [[]]
  | c :: rest =>
    if c = '/' then [] :: splitSlash rest
    else
      match splitSlash rest with
      | [] => [[c]]
      | seg :: segs => (c :: seg) :: segs

/-- Rust `Router::route`: strip one trailing slash from the pattern, clone
the node vector and push a new node. -/
def Router.route (r : Router) (method : Method) (pattern : Chars) (handler : Handler) :
    Router :=
  ⟨r.nodes ++ [⟨method, popTrailing pattern, handler⟩]⟩

/-- Rust `Router::get`. -/
def Router.get (r : Router) (pattern : Chars) (handler : Handler) : Router :=
  r.route Method.GET pattern handler

/-- Rust `Router::post`. -/
def Router.post (r : Router) (pattern : Chars) (handler : Handler) : Router :=
  r.route Method.POST pattern handler

/-- Rust `Router::put`. -/
def Router.put (r : Router) (pattern : Chars) (handler : Handler) : Router :=
  r.route Method.PUT pattern handler

/-- Rust `Router::delete`. -/
def Router.delete (r : Router) (pattern : Chars) (handler : Handler) : Router :=
  r.route Method.DELETE pattern handler

/-- The body of `Router::resolve`'s `for node in &self.nodes` loop.  Each
iteration re-parses the method text and `.unwrap()`s the result (modelled
as `none` on failure); on a method match it normalizes the query path,
splits both strings on `/`, requires equal segment counts, and compares
segments pairwise (`str == node_str || node_str == "*"`).  Falling off the
end of the vector yields `String::from("no match routes")`. -/
def resolveLoop : List Node → Chars → Chars → Option Chars
  | [], _, _ => some (s2l "no match routes")
  | node :: rest, method, path =>
    match Method.tryFrom method with
    | Except.error _ => none
    | Except.ok m =>
      if node.method = m then
        let p := normalize path
        let paths := splitSlash p
        let nodePaths := splitSlash node.pattern
        if paths.length = nodePaths.length then
          if (paths.zip nodePaths).all (fun q => q.1 == q.2 || q.2 == s2l "*") then
            some (node.handler ())
          else resolveLoop rest method path
        else resolveLoop rest method path
      else resolveLoop rest method path

/-- Rust `Router::resolve`; `none` models the panic of the unchecked
`Method::try_from(method).unwrap()`. -/
def Router.resolve (r : Router) (method path : Chars) : Option Chars :=
  resolveLoop r.nodes method path

/-- Predicate extracted from the loop body of `resolve`: does `node` accept
parsed method `m` and (already normalized) query path `p`? -/
def nodeOk (node : Node) (m : Method) (p : Chars) : Bool :=
  decide (node.method = m) &&
    (decide ((splitSlash p).length = (splitSlash node.pattern).length) &&
      ((splitSlash p).zip (splitSlash node.pattern)).all
        (fun q => q.1 == q.2 || q.2 == s2l "*"))

/-- Handlers used in the repository's tests, for concrete evaluations. -/
def hGet : Handler := fun _ => s2l "get"

def hPost : Handler := fun _ => s2l "post"

def hFoo : Handler := fun _ => s2l "foo"

def hBar : Handler := fun _ => s2l "bar"

def hFoobar : Handler := fun _ => s2l "foobar"

def hAbc : Handler := fun _ => s2l "abc"

/-- First of two overlapping routes used to exhibit first-match-wins. -/
def nodeR1 : Node := ⟨Method.GET, s2l "/x/*", fun _ => s2l "r1"⟩

/-- Second of two overlapping routes used to exhibit first-match-wins. -/
def nodeR2 : Node := ⟨Method.GET, s2l "/x/a", fun _ => s2l "r2"⟩

/-! ### Basic lemmas about the slash-collapsing pass -/

theorem collapseStep_length_le : ∀ s : Chars, (collapseStep s).length ≤ s.length
  | [] => Nat.le_refl _
  | [_] => Nat.le_refl _
  | c :: d :: rest => by
    have h1 := collapseStep_length_le rest
    have h2 := collapseStep_length_le (d :: rest)
    simp only [collapseStep]
    split <;> simp only [List.length_cons] at * <;> omega

theorem collapseStep_length_lt : ∀ s : Chars, hasDS s = true → (collapseStep s).length < s.length
  | [] => by intro h; simp [hasDS] at h
  | [c] => by intro h; simp [hasDS] at h
  | c :: d :: rest => by
    intro h
    simp only [collapseStep, hasDS] at *
    split at h
    · rw [if_pos ‹_›]
      have := collapseStep_length_le rest
      simp only [List.length_cons]
      omega
    · rw [if_neg ‹_›]
      have := collapseStep_length_lt (d :: rest) h
      simp only [List.length_cons] at *
      omega

theorem collapseStep_head : ∀ s : Chars, (collapseStep s).head? = s.head?
  | [] => rfl
  | [_] => rfl
  | c :: d :: rest => by
    simp only [collapseStep]
    split
    · obtain ⟨hc, _⟩ := ‹_ ∧ _›
      simp [hc]
    · simp

theorem dedup_head : ∀ s : Chars, (dedup s).head? = s.head?
  | [] => rfl
  | [_] => rfl
  | c :: d :: rest => by
    simp only [dedup]
    split
    · obtain ⟨hc, hd⟩ := ‹_ ∧ _›
      rw [dedup_head (d :: rest)]
      simp [hc, hd]
    · simp

theorem dedup_ne_nil (s : Chars) (h : s ≠ []) : dedup s ≠ [] := by
  intro hn
  have hh := dedup_head s
  rw [hn] at hh
  cases s with
  | nil => exact h rfl
  | cons c rest => simp at hh

theorem dedup_cons (c : Char) (xs : Chars) :
    dedup (c :: xs) =
      if c = '/' ∧ xs.head? = some '/' then dedup xs else c :: dedup xs := by
  cases xs with
  | nil => simp [dedup]
  | cons d rest => simp [dedup]

theorem hasDS_cons (c : Char) (xs : Chars) :
    hasDS (c :: xs) = ((decide (c = '/') && decide (xs.head? = some '/')) || hasDS xs) := by
  cases xs with
  | nil => simp [hasDS]
  | cons d rest =>
    by_cases h : c = '/' ∧ d = '/' <;> simp [hasDS, h]

theorem hasDS_dedup : ∀ s : Chars, hasDS (dedup s) = false
  | [] => rfl
  | [_] => rfl
  | c :: d :: rest => by
    simp only [dedup]
    split
    · exact hasDS_dedup (d :: rest)
    · have h1 := hasDS_dedup (d :: rest)
      have h2 := dedup_head (d :: rest)
      rw [hasDS_cons, h1, h2]
      simp only [List.head?_cons, Bool.or_false]
      rename_i hne
      by_cases hc : c = '/'
      · have hd : ¬ d = '/' := fun hd => hne ⟨hc, hd⟩
        simp [hd]
      · simp [hc]

theorem dedup_of_not_hasDS : ∀ s : Chars, hasDS s = false → dedup s = s
  | [], _ => rfl
  | [_], _ => rfl
  | c :: d :: rest, h => by
    have hcd : ¬(c = '/' ∧ d = '/') := by
      intro hc
      simp [hasDS, hc] at h
    have htail : hasDS (d :: rest) = false := by
      simpa [hasDS, hcd] using h
    simp only [dedup, if_neg hcd]
    rw [dedup_of_not_hasDS (d :: rest) htail]

theorem dedup_collapseStep : ∀ s : Chars, dedup (collapseStep s) = dedup s
  | [] => rfl
  | [_] => rfl
  | c :: d :: rest => by
    simp only [collapseStep]
    split
    · obtain ⟨hc, hd⟩ := ‹_ ∧ _›
      subst hc; subst hd
      rw [dedup_cons '/' (collapseStep rest), collapseStep_head rest]
      have hr : dedup ('/' :: '/' :: rest) = dedup ('/' :: rest) := by
        simp [dedup]
      rw [hr, dedup_cons '/' rest]
      by_cases hh : rest.head? = some '/' <;>
        simp [hh, dedup_collapseStep rest]
    · rename_i hne
      rw [dedup_cons c (collapseStep (d :: rest)), collapseStep_head (d :: rest),
        dedup_cons c (d :: rest)]
      simp only [List.head?_cons]
      have hcond : ¬(c = '/' ∧ some d = some '/') := by
        intro hx
        exact hne ⟨hx.1, by simpa using hx.2⟩
      rw [if_neg hcond, if_neg hcond, dedup_collapseStep (d :: rest)]

theorem collapseIter_eq_dedup : ∀ (n : Nat) (s : Chars), s.length ≤ n → collapseIter n s = dedup s
  | 0, s => by
    intro h
    have hs : s = [] := List.eq_nil_of_length_eq_zero (Nat.le_zero.mp h)
    subst hs
    rfl
  | n + 1, s => by
    intro h
    simp only [collapseIter]
    by_cases hd : hasDS s = true
    · rw [if_pos hd]
      have hlt := collapseStep_length_lt s hd
      rw [collapseIter_eq_dedup n (collapseStep s) (by omega)]
      exact dedup_collapseStep s
    · rw [if_neg hd]
      exact (dedup_of_not_hasDS s (by simpa using hd)).symm

theorem collapseLoop_eq_dedup (s : Chars) : collapseLoop s = dedup s :=
  collapseIter_eq_dedup s.length s (Nat.le_refl _)

theorem normalize_eq_dedup (s : Chars) : normalize s = popTrailing (dedup s) := by
  rw [normalize, collapseLoop_eq_dedup]

/-! ### Lemmas about the trailing-slash removal -/

theorem popTrailing_append_slash : ∀ t : Chars, popTrailing (t ++ ['/']) = t
  | [] => rfl
  | [c] => by simp [popTrailing]
  | c :: d :: rest => by
    simpa [popTrailing] using popTrailing_append_slash (d :: rest)

theorem popTrailing_of_not_endsSlash : ∀ s : Chars, endsSlash s = false → popTrailing s = s
  | [], _ => rfl
  | [c], h => by
    simp only [endsSlash, decide_eq_false_iff_not] at h
    simp [popTrailing, h]
  | c :: d :: rest, h => by
    have := popTrailing_of_not_endsSlash (d :: rest) (by simpa [endsSlash] using h)
    simp [popTrailing, this]

theorem endsSlash_cons (c : Char) (xs : Chars) (h : xs ≠ []) :
    endsSlash (c :: xs) = endsSlash xs := by
  cases xs with
  | nil => exact absurd rfl h
  | cons d rest => rfl

theorem popTrailing_head : ∀ s : Chars, popTrailing s = [] ∨ (popTrailing s).head? = s.head?
  | [] => Or.inl rfl
  | [c] => by
    by_cases h : c = '/'
    · exact Or.inl (by simp [popTrailing, h])
    · exact Or.inr (by simp [popTrailing, h])
  | c :: d :: rest => Or.inr (by simp [popTrailing])

theorem popTrailing_eq_nil : ∀ s : Chars, popTrailing s = [] → s = [] ∨ s = ['/']
  | [], _ => Or.inl rfl
  | [c], h => by
    by_cases hc : c = '/'
    · exact Or.inr (by rw [hc])
    · simp [popTrailing, hc] at h
  | c :: d :: rest, h => by
    simp [popTrailing] at h

theorem hasDS_popTrailing : ∀ s : Chars, hasDS s = false → hasDS (popTrailing s) = false
  | [], _ => rfl
  | [c], _ => by
    by_cases h : c = '/' <;> simp [popTrailing, h, hasDS]
  | c :: d :: rest, h => by
    have hcd : ¬(c = '/' ∧ d = '/') := by
      intro hc
      simp [hasDS, hc] at h
    have htail : hasDS (d :: rest) = false := by
      simpa [hasDS, hcd] using h
    have hpt := hasDS_popTrailing (d :: rest) htail
    simp only [popTrailing]
    rcases hx : popTrailing (d :: rest) with _ | ⟨e, xs⟩
    · simp [hasDS]
    · have he : e = d := by
        rcases popTrailing_head (d :: rest) with h0 | h0
        · rw [h0] at hx; cases hx
        · rw [hx] at h0; simpa using h0
      subst he
      rw [hx] at hpt
      simp only [hasDS, if_neg hcd]
      exact hpt

theorem endsSlash_popTrailing : ∀ s : Chars, hasDS s = false → endsSlash (popTrailing s) = false
  | [], _ => rfl
  | [c], _ => by
    by_cases h : c = '/' <;> simp [popTrailing, h, endsSlash]
  | c :: d :: rest, h => by
    have hcd : ¬(c = '/' ∧ d = '/') := by
      intro hc
      simp [hasDS, hc] at h
    have htail : hasDS (d :: rest) = false := by
      simpa [hasDS, hcd] using h
    have IH := endsSlash_popTrailing (d :: rest) htail
    simp only [popTrailing]
    rcases hx : popTrailing (d :: rest) with _ | ⟨e, xs⟩
    · rcases popTrailing_eq_nil (d :: rest) hx with h0 | h0
      · cases h0
      · have hd : d = '/' := by
          injection h0 with h1 _
        have hc : ¬ c = '/' := fun hc => hcd ⟨hc, hd⟩
        simp [endsSlash, hc]
    · rw [hx] at IH
      rw [endsSlash_cons c (e :: xs) (by simp)]
      exact IH

/-! ### The normalization theorems used by the claims -/

theorem hasDS_normalize (s : Chars) : hasDS (normalize s) = false := by
  rw [normalize_eq_dedup]
  exact hasDS_popTrailing (dedup s) (hasDS_dedup s)

theorem endsSlash_normalize (s : Chars) : endsSlash (normalize s) = false := by
  rw [normalize_eq_dedup]
  exact endsSlash_popTrailing (dedup s) (hasDS_dedup s)

theorem normalize_of_canonical (s : Chars) (h1 : hasDS s = false) (h2 : endsSlash s = false) :
    normalize s = s := by
  rw [normalize_eq_dedup, dedup_of_not_hasDS s h1]
  exact popTrailing_of_not_endsSlash s h2

theorem normalize_normalize (s : Chars) : normalize (normalize s) = normalize s :=
  normalize_of_canonical (normalize s) (hasDS_normalize s) (endsSlash_normalize s)

theorem dedup_append_slash : ∀ xs : Chars,
    dedup (xs ++ ['/']) = if endsSlash (dedup xs) then dedup xs else dedup xs ++ ['/']
  | [] => by simp [dedup, endsSlash]
  | [c] => by
    by_cases hc : c = '/' <;> simp [dedup, endsSlash, hc]
  | c :: d :: rest => by
    have hne := dedup_ne_nil (d :: rest) (by simp)
    by_cases hcd : c = '/' ∧ d = '/'
    · simp only [List.cons_append, dedup, if_pos hcd]
      exact dedup_append_slash (d :: rest)
    · simp only [List.cons_append, dedup, if_neg hcd, List.append_eq]
      have hrec := dedup_append_slash (d :: rest)
      rw [List.cons_append] at hrec
      rw [hrec, endsSlash_cons c _ hne]
      by_cases he : endsSlash (dedup (d :: rest)) = true <;> simp [he]

theorem normalize_append_slash (xs : Chars) : normalize (xs ++ ['/']) = normalize xs := by
  rw [normalize_eq_dedup, normalize_eq_dedup, dedup_append_slash]
  by_cases he : endsSlash (dedup xs) = true
  · rw [if_pos he]
  · rw [if_neg he, popTrailing_append_slash,
      popTrailing_of_not_endsSlash (dedup xs) (by simpa using he)]

theorem dedup_context : ∀ pre suf : Chars,
    dedup (pre ++ '/' :: '/' :: suf) = dedup (pre ++ '/' :: suf)
  | [], suf => by simp [dedup]
  | c :: pre, suf => by
    simp only [List.cons_append]
    rw [dedup_cons c (pre ++ '/' :: '/' :: suf), dedup_cons c (pre ++ '/' :: suf)]
    have hh : (pre ++ '/' :: '/' :: suf).head? = (pre ++ '/' :: suf).head? := by
      cases pre <;> simp
    rw [hh]
    by_cases hc : c = '/' ∧ (pre ++ '/' :: suf).head? = some '/' <;>
      simp [hc, dedup_context pre suf]

theorem dedup_runs : ∀ (n : Nat) (pre suf : Chars),
    dedup (pre ++ '/' :: (List.replicate n '/' ++ suf)) = dedup (pre ++ '/' :: suf)
  | 0, pre, suf => by simp
  | n + 1, pre, suf => by
    rw [List.replicate_succ]
    have h1 : pre ++ '/' :: ('/' :: List.replicate n '/' ++ suf) =
        pre ++ '/' :: '/' :: (List.replicate n '/' ++ suf) := by simp
    rw [h1, dedup_context pre (List.replicate n '/' ++ suf), dedup_runs n pre suf]

theorem normalize_runs (pre suf : Chars) (n : Nat) (hn : 1 ≤ n) :
    normalize (pre ++ List.replicate n '/' ++ suf) = normalize (pre ++ ['/'] ++ suf) := by
  obtain ⟨m, rfl⟩ : ∃ m, n = m + 1 := ⟨n - 1, by omega⟩
  rw [normalize_eq_dedup, normalize_eq_dedup]
  have h1 : pre ++ List.replicate (m + 1) '/' ++ suf =
      pre ++ '/' :: (List.replicate m '/' ++ suf) := by
    rw [List.replicate_succ]
    simp
  have h2 : pre ++ ['/'] ++ suf = pre ++ '/' :: suf := by simp
  rw [h1, h2, dedup_runs m pre suf]

/-! ### Lemmas about the resolution scan -/

theorem resolveLoop_congr (p1 p2 : Chars) (h : normalize p1 = normalize p2) :
    ∀ (nodes : List Node) (mt : Chars), resolveLoop nodes mt p1 = resolveLoop nodes mt p2
  | [], _ => rfl
  | node :: rest, mt => by
    have IH := resolveLoop_congr p1 p2 h rest mt
    simp only [resolveLoop, h, IH]

theorem resolveLoop_cons (node : Node) (rest : List Node) (mt path : Chars) (m : Method)
    (hm : Method.tryFrom mt = Except.ok m) :
    resolveLoop (node :: rest) mt path =
      if nodeOk node m (normalize path) = true then some (node.handler ())
      else resolveLoop rest mt path := by
  simp only [resolveLoop, hm, nodeOk]
  by_cases h1 : node.method = m
  · by_cases h2 : (splitSlash (normalize path)).length = (splitSlash node.pattern).length
    · by_cases h3 : ((splitSlash (normalize path)).zip (splitSlash node.pattern)).all
          (fun q => q.1 == q.2 || q.2 == s2l "*") = true
      · simp [h1, h2, h3]
      · simp [h1, h2, h3]
    · simp [h1, h2]
  · simp [h1]

/-! ### The claims -/

/-- Claim C1 (code bug).  The claim asks that `resolve` with an unparsable
method text fail with an `InvalidMethod` error surfaced to the caller.  The
source instead calls `Method::try_from(method).unwrap()` inside the scan
loop: with at least one registered route, `resolve("GARBAGE", "/foo")`
panics (modelled as `none`), and with an empty registry it returns the
"no match routes" sentinel without ever parsing the method — in neither
case is an `InvalidMethod` error returned. -/
theorem resolve_unchecked_unwrap :
    (Router.default.get (s2l "/get") hGet).resolve (s2l "GARBAGE") (s2l "/foo") = none
    ∧ Router.default.resolve (s2l "GARBAGE") (s2l "/foo") = some (s2l "no match routes") :=
  ⟨by decide, by decide⟩

/-- Claim C2.  First-match-wins: if every route registered before `node`
rejects the parsed method `m` and normalized query path, and `node`
accepts them, then `resolve` returns `node`'s handler result — whatever
routes (matching or not) come after it in registration order. -/
theorem resolve_first_match : ∀ (pre post : List Node) (node : Node) (m : Method)
    (mt path : Chars),
    Method.tryFrom mt = Except.ok m →
    (∀ n ∈ pre, nodeOk n m (normalize path) = false) →
    nodeOk node m (normalize path) = true →
    Router.resolve ⟨pre ++ node :: post⟩ mt path = some (node.handler ())
  | [], post, node, m, mt, path, hm, _, hnode => by
    simp only [Router.resolve, List.nil_append]
    rw [resolveLoop_cons node post mt path m hm, if_pos hnode]
  | a :: pre, post, node, m, mt, path, hm, hpre, hnode => by
    have IH := resolve_first_match pre post node m mt path hm
      (fun n hn => hpre n (List.mem_cons_of_mem a hn)) hnode
    simp only [Router.resolve, List.cons_append] at IH ⊢
    rw [resolveLoop_cons a (pre ++ node :: post) mt path m hm, if_neg]
    · exact IH
    · simp [hpre a (List.mem_cons_self a pre)]

/-- Witness for C2: two overlapping GET routes `/x/*` then `/x/a`; the query
`/x/a` matches both, and resolution returns the earlier route's result. -/
theorem resolve_first_match_witness :
    Router.resolve ⟨[] ++ nodeR1 :: [nodeR2]⟩ (s2l "GET") (s2l "/x/a") = some (s2l "r1") :=
  resolve_first_match [] [nodeR2] nodeR1 Method.GET (s2l "GET") (s2l "/x/a") rfl
    (fun n hn => absurd hn (List.not_mem_nil n)) (by decide)

/-- Claim C3 counterexample.  `Router::route` only strips one trailing
slash; it does not collapse consecutive separators.  Registering the
pattern `/a//b` stores it verbatim, with an empty segment inside, even
though resolution-side normalization would produce `/a/b`; and registering
`/foo//` stores `/foo/`, which still ends with a separator. -/
theorem route_pattern_not_normalized :
    ((Router.default.route Method.GET (s2l "/a//b") hAbc).nodes.map Node.pattern
        = [s2l "/a//b"])
    ∧ hasDS (s2l "/a//b") = true
    ∧ normalize (s2l "/a//b") = s2l "/a/b"
    ∧ ((Router.default.route Method.GET (s2l "/foo//") hFoo).nodes.map Node.pattern
        = [s2l "/foo/"])
    ∧ endsSlash (s2l "/foo/") = true :=
  ⟨by decide, by decide, by decide, by decide, by decide⟩

/-- Claim C3 as amended.  At registration (`route` and each per-verb
wrapper) the stored pattern is the input pattern with at most one trailing
separator removed — no other normalization (in particular no collapsing of
consecutive separators) is applied. -/
theorem route_pattern_popTrailing (r : Router) (m : Method) (p : Chars) (h : Handler) :
    (r.route m p h).nodes.map Node.pattern = r.nodes.map Node.pattern ++ [popTrailing p]
    ∧ (r.get p h).nodes.map Node.pattern = r.nodes.map Node.pattern ++ [popTrailing p]
    ∧ (r.post p h).nodes.map Node.pattern = r.nodes.map Node.pattern ++ [popTrailing p]
    ∧ (r.put p h).nodes.map Node.pattern = r.nodes.map Node.pattern ++ [popTrailing p]
    ∧ (r.delete p h).nodes.map Node.pattern = r.nodes.map Node.pattern ++ [popTrailing p] := by
  refine ⟨?_, ?_, ?_, ?_, ?_⟩ <;>
    simp [Router.route, Router.get, Router.post, Router.put, Router.delete]

/-- Claim C4 counterexample.  Method parsing is not case-insensitive: the
mixed-case token `Get` is rejected. -/
theorem tryFrom_mixed_case_fails :
    Method.tryFrom (s2l "Get") = Except.error (s2l "invalid method") := rfl

/-- Claim C4 as amended.  Method parsing accepts exactly the all-uppercase
and all-lowercase spellings of the four verbs (each mapped to its
`Method`); every other token — mixed-case spellings included — fails with
the `invalid method` error. -/
theorem tryFrom_cases (v : Chars) :
    ((∃ m, Method.tryFrom v = Except.ok m) ↔
      (v = s2l "GET" ∨ v = s2l "get" ∨ v = s2l "POST" ∨ v = s2l "post" ∨ v = s2l "PUT"
        ∨ v = s2l "put" ∨ v = s2l "DELETE" ∨ v = s2l "delete"))
    ∧ Method.tryFrom (s2l "GET") = Except.ok Method.GET
    ∧ Method.tryFrom (s2l "get") = Except.ok Method.GET
    ∧ Method.tryFrom (s2l "POST") = Except.ok Method.POST
    ∧ Method.tryFrom (s2l "post") = Except.ok Method.POST
    ∧ Method.tryFrom (s2l "PUT") = Except.ok Method.PUT
    ∧ Method.tryFrom (s2l "put") = Except.ok Method.PUT
    ∧ Method.tryFrom (s2l "DELETE") = Except.ok Method.DELETE
    ∧ Method.tryFrom (s2l "delete") = Except.ok Method.DELETE := by
  refine ⟨?_, rfl, rfl, rfl, rfl, rfl, rfl, rfl, rfl⟩
  unfold Method.tryFrom
  split_ifs with h1 h2 h3 h4 <;> constructor
  · intro _; tauto
  · intro _; exact ⟨Method.GET, rfl⟩
  · intro _; tauto
  · intro _; exact ⟨Method.POST, rfl⟩
  · intro _; tauto
  · intro _; exact ⟨Method.PUT, rfl⟩
  · intro _; tauto
  · intro _; exact ⟨Method.DELETE, rfl⟩
  · rintro ⟨m, hm⟩; cases hm
  · intro hv; tauto

/-- Witness for C4's amended claim at the token `get`. -/
theorem tryFrom_cases_witness : ∃ m, Method.tryFrom (s2l "get") = Except.ok m :=
  (tryFrom_cases (s2l "get")).1.mpr (by decide)

/-- Claim C5.  Segment-count exactness: a route whose pattern's segment
count differs from the normalized query path's segment count is skipped
(resolution over `node :: rest` equals resolution over `rest`); concretely
the single route `/foo/*` matches neither `/foo/1/2` (extra segment) nor
`/foo` (missing segment), so both resolve to the no-match sentinel. -/
theorem resolve_segment_count_exact :
    (∀ (node : Node) (rest : List Node) (m : Method) (mt path : Chars),
        Method.tryFrom mt = Except.ok m →
        (splitSlash (normalize path)).length ≠ (splitSlash node.pattern).length →
        Router.resolve ⟨node :: rest⟩ mt path = Router.resolve ⟨rest⟩ mt path)
    ∧ (Router.default.get (s2l "/foo/*") hFoo).resolve (s2l "GET") (s2l "/foo/1/2")
        = some (s2l "no match routes")
    ∧ (Router.default.get (s2l "/foo/*") hFoo).resolve (s2l "GET") (s2l "/foo")
        = some (s2l "no match routes") := by
  refine ⟨?_, by decide, by decide⟩
  intro node rest m mt path hm hlen
  simp only [Router.resolve]
  rw [resolveLoop_cons node rest mt path m hm, if_neg]
  simp [nodeOk, hlen]

/-- Witness for C5: the route `/foo/*` (3 segments) is skipped on the query
`/foo/1/2` (4 segments), so the scan continues exactly as without it. -/
theorem resolve_segment_count_exact_witness :
    Router.resolve ⟨[⟨Method.GET, s2l "/foo/*", hFoo⟩]⟩ (s2l "GET") (s2l "/foo/1/2")
      = Router.resolve ⟨[]⟩ (s2l "GET") (s2l "/foo/1/2") :=
  resolve_segment_count_exact.1 ⟨Method.GET, s2l "/foo/*", hFoo⟩ [] Method.GET (s2l "GET")
    (s2l "/foo/1/2") rfl (by decide)

/-- Claim C6.  Trailing-separator equivalence: for every registry, method
text and path, appending one or two separators to the query path does not
change the result of `resolve`. -/
theorem resolve_trailing_slash (r : Router) (mt p : Chars) :
    r.resolve mt (p ++ s2l "/") = r.resolve mt p
    ∧ r.resolve mt (p ++ s2l "//") = r.resolve mt p := by
  constructor
  · exact resolveLoop_congr (p ++ s2l "/") p (normalize_append_slash p) r.nodes mt
  · have e : p ++ s2l "//" = (p ++ ['/']) ++ ['/'] := by
      show p ++ ['/', '/'] = (p ++ ['/']) ++ ['/']
      rw [List.append_assoc]
      rfl
    have h : normalize (p ++ s2l "//") = normalize p := by
      rw [e, normalize_append_slash, normalize_append_slash]
    exact resolveLoop_congr (p ++ s2l "//") p h r.nodes mt

/-- Claim C7.  Normalization is idempotent (and fixes any path with no
consecutive and no trailing separators), and any run of `n ≥ 1` separators
normalizes exactly as a single separator would; e.g. `a//////b` becomes
`a/b`. -/
theorem normalize_idem_runs :
    (∀ p : Chars, normalize (normalize p) = normalize p)
    ∧ (∀ p : Chars, hasDS p = false → endsSlash p = false → normalize p = p)
    ∧ (∀ pre suf : Chars, ∀ n : Nat, 1 ≤ n →
        normalize (pre ++ List.replicate n '/' ++ suf) = normalize (pre ++ ['/'] ++ suf))
    ∧ normalize (s2l "a//////b") = s2l "a/b" :=
  ⟨normalize_normalize, normalize_of_canonical,
    fun pre suf n hn => normalize_runs pre suf n hn, by decide⟩

/-- Witness for C7: a run of six separators between `a` and `b` normalizes
exactly as a single one. -/
theorem normalize_idem_runs_witness :
    normalize (s2l "a" ++ List.replicate 6 '/' ++ s2l "b")
      = normalize (s2l "a" ++ ['/'] ++ s2l "b") :=
  normalize_idem_runs.2.2.1 (s2l "a") (s2l "b") 6 (by decide)

/-- Claim C8.  Registration is non-destructive: `route` and each per-verb
wrapper return a registry whose node list is the receiver's node list with
exactly one node appended.  (In this pure embedding the receiver `r` is a
value and is trivially unchanged, matching the Rust source, which takes
`&self` and clones the node vector.) -/
theorem route_preserves_prior (r : Router) (m : Method) (p : Chars) (h : Handler) :
    (∃ node, (r.route m p h).nodes = r.nodes ++ [node])
    ∧ (∃ node, (r.get p h).nodes = r.nodes ++ [node])
    ∧ (∃ node, (r.post p h).nodes = r.nodes ++ [node])
    ∧ (∃ node, (r.put p h).nodes = r.nodes ++ [node])
    ∧ (∃ node, (r.delete p h).nodes = r.nodes ++ [node]) :=
  ⟨⟨_, rfl⟩, ⟨_, rfl⟩, ⟨_, rfl⟩, ⟨_, rfl⟩, ⟨_, rfl⟩⟩

/-- Claim C9.  When the method text parses and no route in the registry
accepts the parsed method and normalized path, the full scan falls through
and `resolve` returns the fixed sentinel string `no match routes` as an
ordinary (non-panicking) result, with no handler invoked. -/
theorem resolve_no_match : ∀ (nodes : List Node) (m : Method) (mt path : Chars),
    Method.tryFrom mt = Except.ok m →
    (∀ n ∈ nodes, nodeOk n m (normalize path) = false) →
    Router.resolve ⟨nodes⟩ mt path = some (s2l "no match routes")
  | [], _, _, _, _, _ => rfl
  | node :: rest, m, mt, path, hm, hall => by
    have IH := resolve_no_match rest m mt path hm
      (fun n hn => hall n (List.mem_cons_of_mem node hn))
    simp only [Router.resolve] at IH ⊢
    rw [resolveLoop_cons node rest mt path m hm, if_neg]
    · exact IH
    · simp [hall node (List.mem_cons_self node rest)]

/-- Witness for C9: a registry holding only GET `/get` resolves the query
GET `/zzz` to the sentinel. -/
theorem resolve_no_match_witness :
    Router.resolve ⟨[⟨Method.GET, s2l "/get", hGet⟩]⟩ (s2l "GET") (s2l "/zzz")
      = some (s2l "no match routes") :=
  resolve_no_match [⟨Method.GET, s2l "/get", hGet⟩] Method.GET (s2l "GET") (s2l "/zzz") rfl
    (by decide)

/-- Claim C10.  On the empty registry the scan loop never runs, so the
method text is never parsed: `resolve` returns the `no match routes`
sentinel for every method text (unparsable ones included) and every
path. -/
theorem resolve_empty_registry (mt path : Chars) :
    Router.default.resolve mt path = some (s2l "no match routes") := rfl

/-! ### The repository's own test scenarios, replayed against the embedding -/

theorem suite_literal_routes :
    ((Router.default.route Method.GET (s2l "/get") hGet).route Method.POST (s2l "/post")
          hPost).resolve
        (s2l "GET") (s2l "/get") =
      some (s2l "get") := by decide

theorem suite_wildcard_routes :
    ((Router.default.route Method.GET (s2l "/foo/*") hFoo).route Method.GET
          (s2l "/foo/*/*/bar") hFoobar).resolve
        (s2l "GET") (s2l "/foo/1/2/bar") =
      some (s2l "foobar") := by decide

theorem suite_consecutive_slashes :
    (Router.default.route Method.GET (s2l "/a/b/c") hAbc).resolve
        (s2l "GET") (s2l "/a//////b//c") =
      some (s2l "abc") := by decide

theorem suite_trailing_slash :
    (Router.default.get (s2l "/bar/") hBar).resolve (s2l "GET") (s2l "/bar//") =
      some (s2l "bar") := by decide

end SimpleRouter
